import Mathlib

/-!
Verification of the skills-packager core pipeline: discovery, change
detection, plugin grouping, result folding, manifest assembly and release
tag derivation, shallowly embedded from the TypeScript sources
(`src/changes.ts`, `src/package.ts`, `src/manifest.ts`, and the
validate/plugin/release/index modules).

Modelling conventions:
* JS strings are Lean `String`s; reasoning goes through `String.data`.
* Directory paths handled by `path.dirname` / `path.resolve` walks are
  modelled as segment lists (`List String`), the root being `[]`, with
  `dirname` = `List.dropLast` (a fixpoint exactly at the root, as in JS).
* Filesystem reads, the `zip` subprocess, hashing and the `gh release`
  call are injected as explicit capability functions, following the
  design note of the specification; `Option` models throw / non-zero
  exit. `JSON.parse` + field checks on a `plugin.json` are abstracted
  into the `PluginRead` outcome the surrounding code branches on.
-/

namespace SkillsPackager

/-! ## changes.ts -/

/-- Model of `skillDir.replace(/\\/g, "/")` — normalize path separators. -/
def normalizeSep (s : String) : String :=
  ⟨s.data.map (fun c => if c = '\\' then '/' else c)⟩

/-- JS `String.prototype.startsWith`, on Lean strings via their data. -/
def jsStartsWith (s pre : String) : Bool :=
  pre.data.isPrefixOf s.data

/-- Model of `filterChangedSkills` from `src/changes.ts`: keep a skill directory iff
some changed file lies strictly inside it (`normalizedFile.startsWith
(normalizedSkillDir + "/")`). -/
def filterChangedSkills (allSkillDirs changedFiles : List String) : List String :=
  allSkillDirs.filter (fun skillDir =>
    changedFiles.any (fun file =>
      jsStartsWith (normalizeSep file) (normalizeSep skillDir ++ "/")))

/-! ## Segment paths and the plugin walk (plugin.ts) -/

/-- A directory path as a list of segments; `[]` is the filesystem root. -/
abbrev SegPath := List String

/-- Plugin metadata extracted from a `plugin.json` (`PluginMeta` in
`src/manifest.ts`): required `name`, optional non-empty `version`, and the
directory the file was found in. -/
structure PluginMeta where
  name : String
  version : Option String
  path : SegPath
  deriving DecidableEq, Repr

/-- What the code observes when it probes `plugin.json` in a directory:
`absent` — the file does not exist, or reading/`JSON.parse` threw (the
`catch` branch, which continues the search); `noName` — it parsed but
`typeof pluginData.name !== "string"` (warn and continue); `found name
version` — it parsed with a string `name`, `version` being carried only
when it was a string of positive length (the `typeof pluginData.version
=== "string" && pluginData.version.length > 0` guard). -/
inductive PluginRead where
  | absent
  | noName
  | found (name : String) (version : Option String)
  deriving DecidableEq, Repr

/-- Does a probe outcome give a usable descriptor? -/
def PluginRead.isFound : PluginRead → Bool
  | .found _ _ => true
  | _ => false

/-- The loop body of `findPluginForSkill`: at most `fuel` iterations, each
moving `currentPath` to its parent, breaking at the root, probing
`plugin.json` there, returning on the first usable descriptor and
continuing upward past missing/unparseable/nameless ones. -/
def findPluginLoop (fs : SegPath → PluginRead) : SegPath → Nat → Option PluginMeta
  | _, 0 => none
  | cur, fuel + 1 =>
    let parent := cur.dropLast
    if parent = cur then none
    else
      match fs parent with
      | .found n v => some ⟨n, v, parent⟩
      | _ => findPluginLoop fs parent fuel

/-- Model of `findPluginForSkill` from `src/plugin.ts`: walk up from the skill
directory for at most 5 parent levels (`maxLevels = 5`), stopping at the
filesystem root, looking for the nearest usable `plugin.json`. -/
def findPluginForSkill (fs : SegPath → PluginRead) (skillPath : SegPath) : Option PluginMeta :=
  findPluginLoop fs skillPath 5

/-- The sequence of directories the walk visits: successive parents of
`p`, at most `fuel` of them, stopping once the parent equals the current
directory (the root). -/
def ancestorChain : SegPath → Nat → List SegPath
  | _, 0 => []
  | p, fuel + 1 =>
    let parent := p.dropLast
    if parent = p then [] else parent :: ancestorChain parent fuel

/-- The first directory of a list whose `plugin.json` probe yields a
usable descriptor, with that descriptor (proof helper used to restate the
walk as a search over `ancestorChain`). -/
def firstValidPlugin (fs : SegPath → PluginRead) : List SegPath → Option PluginMeta
  | [] => none
  | a :: rest =>
    match fs a with
    | .found n v => some ⟨n, v, a⟩
    | _ => firstValidPlugin fs rest

/-! ## Package results and grouping (manifest.ts, plugin.ts) -/

/-- Model of `PackageResult & { pluginPath?: string }` — one successfully packaged
skill as produced by `packageSkill` in the extended entrypoint. -/
structure ExtendedPackageResult where
  name : String
  version : Option String
  spec : Option Nat
  path : String
  size : Nat
  sha256 : String
  pluginPath : Option SegPath
  deriving DecidableEq, Repr

/-- Model of `SkillGroup` from `src/manifest.ts`: an optional plugin descriptor and
the member skills. -/
structure SkillGroup where
  plugin : Option PluginMeta
  skills : List ExtendedPackageResult
  deriving DecidableEq, Repr

/-- One step of filling the insertion-ordered `Map<string | undefined,
PackageResult[]>` of `groupSkillsByPlugin`: append the skill to the
existing entry for its `pluginPath`, or add a fresh entry at the end. -/
def insertSkill (m : List (Option SegPath × List ExtendedPackageResult))
    (s : ExtendedPackageResult) : List (Option SegPath × List ExtendedPackageResult) :=
  match m with
  | [] => [(s.pluginPath, [s])]
  | (k, gs) :: rest =>
    if k = s.pluginPath then (k, gs ++ [s]) :: rest
    else (k, gs) :: insertSkill rest s

/-- The grouping `Map` after the first loop of `groupSkillsByPlugin`,
rendered as an insertion-ordered association list. -/
def buildMap (skills : List ExtendedPackageResult) :
    List (Option SegPath × List ExtendedPackageResult) :=
  skills.foldl insertSkill []

/-- The second loop of `groupSkillsByPlugin`, for one map entry: a keyed
entry whose `plugin.json` re-read yields a string `name` becomes a single
plugin group; a keyed entry whose re-read throws or lacks a string name is
degraded to one standalone group per member; the `undefined` entry yields
one standalone group per member. -/
def renderEntry (fs : SegPath → PluginRead) :
    Option SegPath × List ExtendedPackageResult → List SkillGroup
  | (some p, gs) =>
    match fs p with
    | .found n v => [⟨some ⟨n, v, p⟩, gs⟩]
    | _ => gs.map (fun s => ⟨none, [s]⟩)
  | (none, gs) => gs.map (fun s => ⟨none, [s]⟩)

/-- Model of `groupSkillsByPlugin` from `src/plugin.ts`: fold skills into an
insertion-ordered map keyed by `pluginPath`, then emit one group per
plugin entry (re-reading its `plugin.json`) and one standalone group per
skill without a plugin. -/
def groupSkillsByPlugin (fs : SegPath → PluginRead)
    (skills : List ExtendedPackageResult) : List SkillGroup :=
  (buildMap skills).flatMap (renderEntry fs)

/-- First occurrence of each key, in first-encounter order, given the keys
already seen; the pure reading of membership testing against a `Set`. -/
def dedupNew {α : Type} [DecidableEq α] (seen : List α) : List α → List α
  | [] => []
  | k :: rest =>
    if k ∈ seen then dedupNew seen rest
    else k :: dedupNew (seen ++ [k]) rest

/-- Deduplicate a list keeping the first occurrence of each element. -/
def dedupFirst {α : Type} [DecidableEq α] (l : List α) : List α :=
  dedupNew [] l

/-- Lookup of the first entry with the given key in an association list
(proof helper for the grouping map). -/
def getGroup (k : Option SegPath) :
    List (Option SegPath × List ExtendedPackageResult) →
    Option (List ExtendedPackageResult)
  | [] => none
  | (k2, gs) :: rest => if k2 = k then some gs else getGroup k rest

/-! ## packageSkill, discovery and the entrypoint (index.ts / package.ts) -/

/-- Model of `SkillMeta` from `src/validate.ts` (description omitted: the pipeline
never reads it after validation). -/
structure SkillMeta where
  name : String
  version : Option String
  spec : Option Nat
  deriving DecidableEq, Repr

/-- Model of `ValidationResult` from `src/validate.ts`. -/
structure ValidationResult where
  valid : Bool
  errors : List String
  warnings : List String
  deriving DecidableEq, Repr

/-- The zip filename `packageSkill` derives:
`meta.name + (meta.version ? "-v" + meta.version : "") + ".zip"`. -/
def zipFilename (meta : SkillMeta) : String :=
  meta.name ++ (match meta.version with
    | some v => "-v" ++ v
    | none => "") ++ ".zip"

/-- Everything the outside world answers `packageSkill` for one skill
directory: the validation outcome, the parsed frontmatter, whether the
`zip` subprocess exited 0, the resulting archive size and SHA-256 digest,
and the plugin found by `findPluginForSkill`. -/
structure SkillIO where
  validation : ValidationResult
  meta : Option SkillMeta
  zipOk : Bool
  zipSize : Nat
  zipSha256 : String
  plugin : Option PluginMeta
  deriving DecidableEq, Repr

/-- Model of `packageSkill` from the extended entrypoint: fail (`null`) on invalid
validation, missing frontmatter, or a failing `zip`; otherwise emit the
result record whose `path` is `resolve(outputDir, filename)` — modelled as
`outputDir ++ "/" ++ filename` — carrying the enclosing plugin path. -/
def packageSkill (io : SkillIO) (outputDir : String) : Option ExtendedPackageResult :=
  if io.validation.valid = false then none
  else
    match io.meta with
    | none => none
    | some meta =>
      if io.zipOk = false then none
      else some
        { name := meta.name
          version := meta.version
          spec := meta.spec
          path := outputDir ++ "/" ++ zipFilename meta
          size := io.zipSize
          sha256 := io.zipSha256
          pluginPath := io.plugin.map (fun pm => pm.path) }

/-- Depth of a discovered `SKILL.md`, relative to the scan root:
`file.split("/").length - 1` on the glob-relative path. -/
def fileDepth (file : List String) : Nat :=
  file.length - 1

/-- Render a segment path for the lexicographic sort (`paths.sort()`
compares the joined strings). -/
def renderPath (p : SegPath) : String :=
  String.intercalate "/" p

/-- Comparator used to model `Array.prototype.sort()` on path strings. -/
def pathLe (a b : SegPath) : Bool :=
  decide (renderPath a ≤ renderPath b)

/-- Insert a path into a sorted list (a structural rendering of the
comparison sort behind `Array.prototype.sort()`). -/
def insertSorted (x : SegPath) : List SegPath → List SegPath
  | [] => [x]
  | y :: ys => if pathLe x y then x :: y :: ys else y :: insertSorted x ys

/-- Sort paths lexicographically by their rendered string. -/
def sortPaths (l : List SegPath) : List SegPath :=
  l.foldr insertSorted []

/-- Model of `discoverSkillPaths`: for each matched `**/SKILL.md` (its path given
relative to `skillsDir` as segments ending in the filename), skip matches
deeper than 3, take the containing directory joined below the root,
deduplicate keeping the first occurrence, and sort. -/
def discoverSkillPaths (skillsDir : SegPath) (files : List (List String)) : List SegPath :=
  sortPaths
    (dedupFirst
      (((files.filter (fun f => fileDepth f ≤ 3)).map
        (fun f => skillsDir ++ f.dropLast))))

/-- Model of `path.dirname` on a slash-separated relative path string (as used by
`normalizeSkillPaths` on workflow-supplied entries). -/
def jsDirname (s : String) : String :=
  let parts := s.splitOn "/"
  if parts.length ≤ 1 then "." else String.intercalate "/" parts.dropLast

/-- Model of `normalizeSkillPaths`: split the raw input on newlines, trim, drop
blanks, rewrite entries ending in `SKILL.md` to their directory, and
deduplicate preserving first-seen order. -/
def normalizeSkillPaths (skillPathsRaw : String) : List String :=
  dedupFirst
    ((((skillPathsRaw.splitOn "\n").map (fun e => e.trim)).filter
      (fun e => e ≠ "")).map
      (fun e => if e.endsWith "SKILL.md" then jsDirname e else e))

/-- The candidate-selection step of `main`: explicit `skill-paths` input
(when present and non-blank) is normalized and used verbatim; otherwise
the full discovered set is used. No other selection step exists in the
entrypoint — in particular nothing from `src/changes.ts` is invoked. -/
def selectSkillPaths (skillPathsRaw : Option String) (discovered : List String) : List String :=
  match skillPathsRaw with
  | some raw => if raw.trim.length > 0 then normalizeSkillPaths raw else discovered
  | none => discovered

/-- Model of `Manifest` from `src/manifest.ts`: a timestamp, the flat skill list,
and the optional groups. -/
structure Manifest where
  generated : String
  skills : List ExtendedPackageResult
  groups : Option (List SkillGroup)
  deriving DecidableEq, Repr

/-- Model of `writeManifest`: attach `groups` only when at least one group exists. -/
def writeManifest (generated : String) (results : List ExtendedPackageResult)
    (groups : List SkillGroup) : Manifest :=
  { generated := generated
    skills := results
    groups := if groups.length > 0 then some groups else none }

/-- The observable outcome of one packaging run of `main`. -/
structure RunOutcome where
  results : List ExtendedPackageResult
  manifest : Manifest
  valid : Bool
  exitNonzero : Bool
  deriving Repr

/-- The packaging phase of `main` in the extended entrypoint: package each
selected path in order keeping the successes, group them by plugin, write
the manifest, report `valid = (results.length === skillPaths.length)` and
exit non-zero iff `results.length < skillPaths.length`. -/
def runPackaging (cap : String → SkillIO) (outputDir : String)
    (fs : SegPath → PluginRead) (skillPaths : List String) (now : String) : RunOutcome :=
  let results := skillPaths.filterMap (fun p => packageSkill (cap p) outputDir)
  let groups := groupSkillsByPlugin fs results
  { results := results
    manifest := writeManifest now results groups
    valid := results.length == skillPaths.length
    exitNonzero := decide (results.length < skillPaths.length) }

/-! ## Release tag derivation (release.ts) -/

/-- Model of `ReleaseResult` from `src/release.ts`. -/
structure ReleaseResult where
  tag : String
  url : String
  plugin : Option String
  assets : List String
  deriving DecidableEq, Repr

/-- JS template-literal interpolation of a possibly-`undefined` string:
interpolating `undefined` produces the text `"undefined"`. -/
def jsInterpolate : Option String → String
  | some s => s
  | none => "undefined"

/-- The tag the plugin branch of `createReleasesFromGroups` builds:
a template literal over `group.plugin.version` with NO default — a
missing version interpolates as `"undefined"`. -/
def pluginGroupTag (pre : String) (pm : PluginMeta) : String :=
  pre ++ pm.name ++ "-v" ++ jsInterpolate pm.version

/-- The tag the standalone branch builds: `skill.version || "0.0.0"`. -/
def standaloneTag (pre : String) (s : ExtendedPackageResult) : String :=
  pre ++ s.name ++ "-v" ++ s.version.getD "0.0.0"

/-- The standalone inner loop of `createReleasesFromGroups`: one release
per skill; a throwing `createRelease` (modelled by `none`) aborts the rest
of this group (caught by the per-group `catch`) but keeps the releases
already pushed. -/
def releaseStandaloneSkills (crel : String → List String → Option String)
    (manifestPath pre : String) : List ExtendedPackageResult → List ReleaseResult
  | [] => []
  | s :: rest =>
    match crel (standaloneTag pre s) [manifestPath, s.path] with
    | some url =>
      ⟨standaloneTag pre s, url, none, [manifestPath, s.path]⟩ ::
        releaseStandaloneSkills crel manifestPath pre rest
    | none => []

/-- Per-group body of `createReleasesFromGroups`: a plugin group gets one
release with the manifest plus every member archive (skipped wholesale if
`createRelease` throws); a standalone group releases its members one by
one. -/
def releaseGroup (crel : String → List String → Option String)
    (manifestPath pre : String) (g : SkillGroup) : List ReleaseResult :=
  match g.plugin with
  | some pm =>
    match crel (pluginGroupTag pre pm) (manifestPath :: g.skills.map (fun s => s.path)) with
    | some url =>
      [⟨pluginGroupTag pre pm, url, some pm.name,
        manifestPath :: g.skills.map (fun s => s.path)⟩]
    | none => []
  | none => releaseStandaloneSkills crel manifestPath pre g.skills

/-- Model of `createReleasesFromGroups` from `src/release.ts`, with the `gh` call
injected as `crel` (returning the release URL, or `none` for a throw);
failures are isolated per group and the loop continues. -/
def createReleasesFromGroups (crel : String → List String → Option String)
    (groups : List SkillGroup) (manifestPath pre : String) : List ReleaseResult :=
  groups.flatMap (releaseGroup crel manifestPath pre)

/-! ## Proof helpers and concrete fixtures -/

/-- Proof helper: how a fold over `insertSkill` extends the bucket of one key. -/
def extendBucket (o : Option (List ExtendedPackageResult))
    (fl : List ExtendedPackageResult) : Option (List ExtendedPackageResult) :=
  match o, fl with
  | none, [] => none
  | o, fl => some (o.getD [] ++ fl)

/-- Fixture: a filesystem carrying one valid `plugin.json` at `/plug`. -/
def fsPlug : SegPath → PluginRead :=
  fun p => if p = ["plug"] then .found "plug-pack" none else .absent

/-- Fixture: a filesystem with no `plugin.json` anywhere. -/
def fsAbsent : SegPath → PluginRead := fun _ => .absent

/-- Fixture: a `plugin.json` with an empty-string `name` one level up and
a valid one at the root. -/
def fsEmptyName : SegPath → PluginRead :=
  fun p =>
    if p = ["r"] then .found "" none
    else if p = [] then .found "good" none
    else .absent

/-- Fixture: a standalone packaged skill. -/
def aloneA : ExtendedPackageResult :=
  ⟨"alone-a", none, none, "dist/alone-a.zip", 1, "a1", none⟩

/-- Fixture: a packaged skill under the `/plug` plugin. -/
def plugSkill : ExtendedPackageResult :=
  ⟨"plug-member", none, none, "dist/plug-member.zip", 1, "p1", some ["plug"]⟩

/-- Fixture: a second standalone packaged skill. -/
def aloneB : ExtendedPackageResult :=
  ⟨"alone-b", none, none, "dist/alone-b.zip", 1, "b1", none⟩

/-- Fixture: a release-creation capability that always succeeds. -/
def crelOk : String → List String → Option String :=
  fun tag _ => some ("https://rel/" ++ tag)

/-- Fixture: a plugin descriptor that has no `version` field. -/
def packMeta : PluginMeta := ⟨"pack", none, ["gp"]⟩

/-- Fixture: a member skill of the `pack` plugin group. -/
def memberSkill : ExtendedPackageResult :=
  ⟨"member", none, none, "dist/member.zip", 1, "aa", some ["gp"]⟩

/-- Fixture: a standalone skill with no version. -/
def soloSkill : ExtendedPackageResult :=
  ⟨"solo", none, none, "dist/solo.zip", 1, "bb", none⟩

/-- Fixture: per-skill capability for a skill that validates and zips. -/
def goodIO : SkillIO :=
  ⟨⟨true, [], []⟩, some ⟨"good-skill", some "1.0.0", none⟩, true, 10, "aa", none⟩

/-- Fixture: capability for a skill whose metadata fails validation
(a name with uppercase and underscore). -/
def badIO : SkillIO :=
  ⟨⟨false, ["Skill name My_Skill should be lowercase with hyphens only"], []⟩,
    some ⟨"My_Skill", none, none⟩, true, 0, "", none⟩

/-- Fixture: a run where exactly one of the three candidates is invalid. -/
def capMixed : String → SkillIO :=
  fun p => if p = "skills/bad" then badIO else goodIO

/-- Fixture: capability for the first of two duplicate-named skills. -/
def dupIOa : SkillIO :=
  ⟨⟨true, [], []⟩, some ⟨"dup", none, none⟩, true, 10, "aa", none⟩

/-- Fixture: capability for the second duplicate-named skill (different
content, hence different size and digest). -/
def dupIOb : SkillIO :=
  ⟨⟨true, [], []⟩, some ⟨"dup", none, none⟩, true, 20, "bb", none⟩

/-- Fixture: a run whose two candidates declare the same skill name. -/
def capDup : String → SkillIO :=
  fun p => if p = "skills/a" then dupIOa else dupIOb

/-- Fixture: the packaged record of the first duplicate-named skill. -/
def dupResA : ExtendedPackageResult :=
  ⟨"dup", none, none, "dist/dup.zip", 10, "aa", none⟩

/-- Fixture: the packaged record of the second duplicate-named skill. -/
def dupResB : ExtendedPackageResult :=
  ⟨"dup", none, none, "dist/dup.zip", 20, "bb", none⟩

/-! ## Change filtering (C5, C1) -/

theorem append_singleton_not_isPrefixOf (l : List Char) (c : Char) :
    (l ++ [c]).isPrefixOf l = false := by
  induction l with
  | nil => rfl
  | cons a l ih => simp [List.isPrefixOf, ih]

theorem jsStartsWith_self_slash (s : String) :
    jsStartsWith s (s ++ "/") = false := by
  simp only [jsStartsWith, String.data_append]
  exact append_singleton_not_isPrefixOf s.data '/'

/-- C5: change-filtering retains a candidate iff some changed file path,
after backslash normalization, begins with the (normalized) candidate path
followed by a slash; a changed path equal to the candidate path does not
retain it, and an empty changed-file list retains nothing. -/
theorem filterChangedSkills_spec (dirs changed : List String) (d : String) :
    (d ∈ filterChangedSkills dirs changed ↔
      d ∈ dirs ∧ ∃ f ∈ changed,
        jsStartsWith (normalizeSep f) (normalizeSep d ++ "/") = true) ∧
    d ∉ filterChangedSkills dirs [d] ∧
    filterChangedSkills dirs [] = [] := by
  refine ⟨?_, ?_, ?_⟩
  · simp [filterChangedSkills, List.mem_filter, List.any_eq_true]
  · intro hmem
    simp only [filterChangedSkills, List.mem_filter, List.any_eq_true,
      List.mem_singleton] at hmem
    obtain ⟨-, f, hf, hpre⟩ := hmem
    subst hf
    rw [jsStartsWith_self_slash] at hpre
    exact Bool.false_ne_true hpre
  · simp [filterChangedSkills]

theorem filterChangedSkills_spec_witness :
    ("a/b" ∈ filterChangedSkills ["a/b", "a/c"] ["a/b/x.txt"] ↔
      "a/b" ∈ (["a/b", "a/c"] : List String) ∧ ∃ f ∈ (["a/b/x.txt"] : List String),
        jsStartsWith (normalizeSep f) (normalizeSep "a/b" ++ "/") = true) ∧
    "a/b" ∉ filterChangedSkills ["a/b", "a/c"] ["a/b"] ∧
    filterChangedSkills ["a/b", "a/c"] [] = [] :=
  ⟨(filterChangedSkills_spec ["a/b", "a/c"] ["a/b/x.txt"] "a/b").1,
   (filterChangedSkills_spec ["a/b", "a/c"] ["a/b"] "a/b").2.1,
   (filterChangedSkills_spec ["a/b", "a/c"] [] "a/b").2.2⟩

/-- C1: the entrypoint never invokes change detection — with no explicit
skill-path input the selected candidate set is the full discovered set,
even when `filterChangedSkills` applied to the same discovery output and a
non-trivial changed-file set would keep a strict subset. -/
theorem selectSkillPaths_ignores_changes :
    (∀ discovered : List String, selectSkillPaths none discovered = discovered) ∧
    filterChangedSkills ["a/b", "a/c"] ["a/b/x.txt"] = ["a/b"] ∧
    (["a/b", "a/c"] : List String) ≠ ["a/b"] := by
  refine ⟨fun _ => rfl, by decide, by decide⟩

/-! ## Release tags (C2) -/

/-- C2: the release tag of a plugin group is built by interpolating
`group.plugin.version` with no default, so a descriptor without a version
yields the tag `pack-vundefined` rather than `pack-v0.0.0`; the standalone
branch does default to `0.0.0`, and a versioned descriptor with a prefix
behaves as specified. -/
theorem createReleasesFromGroups_tag_divergence :
    createReleasesFromGroups crelOk
        [⟨some packMeta, [memberSkill]⟩, ⟨none, [soloSkill]⟩]
        "dist/manifest.json" "" =
      [⟨"pack-vundefined", "https://rel/pack-vundefined", some "pack",
        ["dist/manifest.json", "dist/member.zip"]⟩,
       ⟨"solo-v0.0.0", "https://rel/solo-v0.0.0", none,
        ["dist/manifest.json", "dist/solo.zip"]⟩] ∧
    pluginGroupTag "" packMeta ≠ "pack-v0.0.0" ∧
    pluginGroupTag "rel-" ⟨"pack", some "2.0.0", ["gp"]⟩ = "rel-pack-v2.0.0" := by
  refine ⟨by decide, by decide, by decide⟩

/-! ## Archive path uniqueness (C4) -/

/-- C4 counterexample: a run whose two candidates declare the same name
and version produces two distinct Success records carrying the same
`archivePath`. -/
theorem archivePath_collision :
    (runPackaging capDup "dist" fsAbsent ["skills/a", "skills/b"] "t0").results =
      [dupResA, dupResB] ∧
    dupResA ≠ dupResB ∧
    ¬ ((runPackaging capDup "dist" fsAbsent ["skills/a", "skills/b"] "t0").results.map
        (fun r => r.path)).Nodup := by
  refine ⟨by decide, by decide, by decide⟩

theorem append_left_cancel_string {s t u : String} (h : s ++ t = s ++ u) : t = u := by
  have hd := congrArg String.data h
  simp only [String.data_append] at hd
  exact String.ext (List.append_cancel_left hd)

/-- C4 (amended): the `archivePath` of a Success record is the output directory
joined with the zip filename derived from the metadata name and version;
two Success records share an `archivePath` exactly when those filenames
coincide, so uniqueness holds only as far as the encoded filenames are
distinct. -/
theorem packageSkill_path_eq_iff (outputDir : String) (io1 io2 : SkillIO)
    (r1 r2 : ExtendedPackageResult)
    (h1 : packageSkill io1 outputDir = some r1)
    (h2 : packageSkill io2 outputDir = some r2) :
    r1.path = r2.path ↔
      ∃ m1 m2, io1.meta = some m1 ∧ io2.meta = some m2 ∧
        zipFilename m1 = zipFilename m2 := by
  unfold packageSkill at h1 h2
  rcases hv1 : io1.validation.valid with _ | _ <;> rw [hv1] at h1 <;> simp at h1
  rcases hm1 : io1.meta with _ | m1 <;> rw [hm1] at h1 <;> simp at h1
  rcases hz1 : io1.zipOk with _ | _ <;> rw [hz1] at h1 <;> simp at h1
  rcases hv2 : io2.validation.valid with _ | _ <;> rw [hv2] at h2 <;> simp at h2
  rcases hm2 : io2.meta with _ | m2 <;> rw [hm2] at h2 <;> simp at h2
  rcases hz2 : io2.zipOk with _ | _ <;> rw [hz2] at h2 <;> simp at h2
  subst h1
  subst h2
  constructor
  · intro hpath
    refine ⟨m1, m2, rfl, rfl, ?_⟩
    simp only at hpath
    have hassoc :
        outputDir ++ "/" ++ zipFilename m1 = outputDir ++ "/" ++ zipFilename m2 := hpath
    rw [String.append_assoc, String.append_assoc] at hassoc
    exact append_left_cancel_string (append_left_cancel_string hassoc)
  · rintro ⟨m1x, m2x, hmx1, hmx2, hf⟩
    have e1 : m1x = m1 := (Option.some.inj hmx1).symm
    have e2 : m2x = m2 := (Option.some.inj hmx2).symm
    subst e1
    subst e2
    simp only
    rw [hf]

/-! ## The grouping map: characterization lemmas -/

theorem getGroup_insertSkill (m : List (Option SegPath × List ExtendedPackageResult))
    (s : ExtendedPackageResult) (k : Option SegPath) :
    getGroup k (insertSkill m s) =
      if s.pluginPath = k then some ((getGroup k m).getD [] ++ [s])
      else getGroup k m := by
  induction m with
  | nil =>
    by_cases h : s.pluginPath = k
    · subst h; simp [insertSkill, getGroup]
    · simp [insertSkill, getGroup, h]
  | cons head rest ih =>
    obtain ⟨k2, gs⟩ := head
    by_cases h2 : k2 = s.pluginPath
    · subst h2
      by_cases hk : s.pluginPath = k
      · subst hk
        simp [insertSkill, getGroup]
      · simp [insertSkill, getGroup, hk]
    · have h2s : ¬ s.pluginPath = k2 := fun e => h2 e.symm
      by_cases hk : k2 = k
      · subst hk
        simp [insertSkill, getGroup, h2, h2s]
      · simp only [insertSkill, if_neg h2, getGroup, if_neg hk]
        exact ih

theorem getGroup_foldl (l : List ExtendedPackageResult) :
    ∀ (m : List (Option SegPath × List ExtendedPackageResult)) (k : Option SegPath),
    getGroup k (l.foldl insertSkill m) =
      extendBucket (getGroup k m) (l.filter (fun s => decide (s.pluginPath = k))) := by
  induction l with
  | nil =>
    intro m k
    simp only [List.foldl_nil, List.filter_nil]
    cases h : getGroup k m <;> simp [extendBucket]
  | cons s l ih =>
    intro m k
    simp only [List.foldl_cons, List.filter_cons]
    by_cases hk : s.pluginPath = k
    · rw [if_pos (by simp [hk]), ih, getGroup_insertSkill, if_pos hk]
      cases h : getGroup k m <;> simp [extendBucket]
    · rw [if_neg (by simp [hk]), ih, getGroup_insertSkill, if_neg hk]

theorem map_fst_insertSkill (m : List (Option SegPath × List ExtendedPackageResult))
    (s : ExtendedPackageResult) :
    (insertSkill m s).map Prod.fst =
      if s.pluginPath ∈ m.map Prod.fst then m.map Prod.fst
      else m.map Prod.fst ++ [s.pluginPath] := by
  induction m with
  | nil => simp [insertSkill]
  | cons head rest ih =>
    obtain ⟨k2, gs⟩ := head
    by_cases h2 : k2 = s.pluginPath
    · subst h2
      simp [insertSkill]
    · have h2s : ¬ s.pluginPath = k2 := fun e => h2 e.symm
      simp only [insertSkill, if_neg h2, List.map_cons, List.mem_cons]
      rw [ih]
      by_cases hmem : s.pluginPath ∈ rest.map Prod.fst
      · simp [hmem]
      · simp [hmem, h2s]

theorem map_fst_foldl (l : List ExtendedPackageResult) :
    ∀ m : List (Option SegPath × List ExtendedPackageResult),
    (l.foldl insertSkill m).map Prod.fst =
      m.map Prod.fst ++ dedupNew (m.map Prod.fst) (l.map (fun s => s.pluginPath)) := by
  induction l with
  | nil => intro m; simp [dedupNew]
  | cons s l ih =>
    intro m
    simp only [List.foldl_cons, List.map_cons, dedupNew]
    rw [ih, map_fst_insertSkill]
    by_cases hmem : s.pluginPath ∈ m.map Prod.fst
    · rw [if_pos hmem, if_pos hmem]
    · rw [if_neg hmem, if_neg hmem]
      simp [List.append_assoc]

theorem mem_dedupNew {α : Type} [DecidableEq α] (l : List α) :
    ∀ (seen : List α) (a : α), a ∈ dedupNew seen l ↔ a ∈ l ∧ a ∉ seen := by
  induction l with
  | nil => intro seen a; simp [dedupNew]
  | cons k rest ih =>
    intro seen a
    simp only [dedupNew]
    by_cases hk : k ∈ seen
    · rw [if_pos hk, ih]
      simp only [List.mem_cons]
      constructor
      · rintro ⟨h1, h2⟩
        exact ⟨Or.inr h1, h2⟩
      · rintro ⟨h1 | h1, h2⟩
        · subst h1; exact absurd hk h2
        · exact ⟨h1, h2⟩
    · rw [if_neg hk]
      simp only [List.mem_cons, ih, List.mem_append, List.mem_singleton]
      constructor
      · rintro (rfl | ⟨h1, h2⟩)
        · exact ⟨Or.inl rfl, hk⟩
        · refine ⟨Or.inr h1, fun hs => h2 (Or.inl hs)⟩
      · rintro ⟨rfl | h1, h2⟩
        · exact Or.inl rfl
        · by_cases hak : a = k
          · exact Or.inl hak
          · refine Or.inr ⟨h1, ?_⟩
            intro hs
            rcases hs with hs | hs | hs
            · exact h2 hs
            · exact hak hs
            · exact (List.not_mem_nil a) hs

theorem dedupNew_nodup {α : Type} [DecidableEq α] (l : List α) :
    ∀ seen : List α, (dedupNew seen l).Nodup := by
  induction l with
  | nil => intro seen; simp [dedupNew]
  | cons k rest ih =>
    intro seen
    simp only [dedupNew]
    by_cases hk : k ∈ seen
    · rw [if_pos hk]; exact ih seen
    · rw [if_neg hk]
      refine List.nodup_cons.mpr ⟨?_, ih _⟩
      intro hmem
      rw [mem_dedupNew] at hmem
      exact hmem.2 (List.mem_append.mpr (Or.inr (List.mem_singleton.mpr rfl)))

theorem assoc_reconstruct (m : List (Option SegPath × List ExtendedPackageResult))
    (h : (m.map Prod.fst).Nodup) :
    m = (m.map Prod.fst).map (fun k => (k, (getGroup k m).getD [])) := by
  induction m with
  | nil => rfl
  | cons head rest ih =>
    obtain ⟨k0, gs⟩ := head
    simp only [List.map_cons] at h ⊢
    have hnd := List.nodup_cons.mp h
    have hcongr : ∀ k ∈ rest.map Prod.fst,
        (fun k => (k, (getGroup k ((k0, gs) :: rest)).getD [])) k =
        (fun k => (k, (getGroup k rest).getD [])) k := by
      intro k hk
      have hne : k0 ≠ k := fun e => hnd.1 (e ▸ hk)
      simp [getGroup, hne]
    rw [List.map_congr_left hcongr]
    have hhead : getGroup k0 ((k0, gs) :: rest) = some gs := by simp [getGroup]
    rw [hhead]
    simp only [Option.getD_some, List.cons.injEq]
    exact ⟨trivial, ih hnd.2⟩

theorem buildMap_eq (skills : List ExtendedPackageResult) :
    buildMap skills =
      (dedupFirst (skills.map (fun s => s.pluginPath))).map
        (fun k => (k, skills.filter (fun s => decide (s.pluginPath = k)))) := by
  have hkeys : (buildMap skills).map Prod.fst =
      dedupFirst (skills.map (fun s => s.pluginPath)) := by
    have hmf := map_fst_foldl skills []
    simpa [buildMap, dedupFirst] using hmf
  have hnd : ((buildMap skills).map Prod.fst).Nodup := by
    rw [hkeys]; exact dedupNew_nodup _ _
  have hrec := assoc_reconstruct (buildMap skills) hnd
  rw [hrec, hkeys]
  apply List.map_congr_left
  intro k hk
  have hkmem : k ∈ skills.map (fun s => s.pluginPath) :=
    ((mem_dedupNew _ _ _).mp hk).1
  obtain ⟨s0, hs0, hks⟩ := List.mem_map.mp hkmem
  have hg : getGroup k (buildMap skills) =
      extendBucket none (skills.filter (fun s => decide (s.pluginPath = k))) :=
    getGroup_foldl skills [] k
  rcases hfe : skills.filter (fun s => decide (s.pluginPath = k)) with _ | ⟨a, fl⟩
  · rw [List.filter_eq_nil_iff] at hfe
    exact absurd (hfe s0 hs0) (by simp [hks])
  · rw [hfe] at hg
    simp only [extendBucket, Option.getD_none, List.nil_append] at hg
    rw [hg, hfe]
    simp

theorem flatMap_congr {α β : Type} {l : List α} {f g : α → List β}
    (h : ∀ a ∈ l, f a = g a) : l.flatMap f = l.flatMap g := by
  induction l with
  | nil => rfl
  | cons a l ih =>
    simp only [List.flatMap_cons]
    rw [h a (List.mem_cons_self _ _), ih (fun x hx => h x (List.mem_cons_of_mem _ hx))]

theorem flatMap_flatMap {α β γ : Type} (l : List α) (f : α → List β) (g : β → List γ) :
    (l.flatMap f).flatMap g = l.flatMap (fun a => (f a).flatMap g) := by
  induction l with
  | nil => rfl
  | cons a l ih => simp [List.flatMap_cons, List.flatMap_append, ih]

theorem filter_flatMap {α β : Type} (l : List α) (f : α → List β) (p : β → Bool) :
    (l.flatMap f).filter p = l.flatMap (fun a => (f a).filter p) := by
  induction l with
  | nil => rfl
  | cons a l ih => simp [List.flatMap_cons, List.filter_append, ih]

theorem flatMap_singleton_skills (gs : List ExtendedPackageResult) :
    ((gs.map (fun s => (⟨none, [s]⟩ : SkillGroup))).flatMap (fun g => g.skills)) = gs := by
  induction gs with
  | nil => rfl
  | cons s gs ih => simp [List.flatMap_cons, ih]

theorem renderEntry_flatMap_skills (fs : SegPath → PluginRead) (k : Option SegPath)
    (gs : List ExtendedPackageResult) :
    ((renderEntry fs (k, gs)).flatMap (fun g => g.skills)) = gs := by
  cases k with
  | none => exact flatMap_singleton_skills gs
  | some p =>
    cases hf : fs p with
    | found n v => simp [renderEntry, hf]
    | absent => simp only [renderEntry, hf]; exact flatMap_singleton_skills gs
    | noName => simp only [renderEntry, hf]; exact flatMap_singleton_skills gs

theorem flatMap_filter_key_perm :
    ∀ (ks : List (Option SegPath)) (skills : List ExtendedPackageResult),
    ks.Nodup → (∀ s ∈ skills, s.pluginPath ∈ ks) →
    (ks.flatMap (fun k => skills.filter (fun s => decide (s.pluginPath = k)))).Perm skills := by
  intro ks
  induction ks with
  | nil =>
    intro skills _ hcov
    cases skills with
    | nil => simp
    | cons s rest => exact absurd (hcov s (List.mem_cons_self _ _)) (List.not_mem_nil _)
  | cons k ks ih =>
    intro skills hnd hcov
    simp only [List.flatMap_cons]
    have hnd2 := List.nodup_cons.mp hnd
    have hstep :
        ks.flatMap (fun k2 => skills.filter (fun s => decide (s.pluginPath = k2))) =
        ks.flatMap (fun k2 =>
          (skills.filter (fun s => !decide (s.pluginPath = k))).filter
            (fun s => decide (s.pluginPath = k2))) := by
      apply flatMap_congr
      intro k2 hk2
      have hk2ne : k2 ≠ k := fun e => hnd2.1 (e ▸ hk2)
      rw [List.filter_filter]
      apply List.filter_congr
      intro s _
      by_cases h : s.pluginPath = k2
      · have hne : s.pluginPath ≠ k := by rw [h]; exact hk2ne
        simp [h, hne, hk2ne]
      · simp [h]
    rw [hstep]
    have hperm2 :
        (ks.flatMap (fun k2 =>
          (skills.filter (fun s => !decide (s.pluginPath = k))).filter
            (fun s => decide (s.pluginPath = k2)))).Perm
          (skills.filter (fun s => !decide (s.pluginPath = k))) := by
      refine ih _ hnd2.2 ?_
      intro s hs
      rw [List.mem_filter] at hs
      rcases List.mem_cons.mp (hcov s hs.1) with h | h
      · exact absurd h (by simpa using hs.2)
      · exact h
    exact (List.Perm.append_left _ hperm2).trans
      (List.filter_append_perm (fun s => decide (s.pluginPath = k)) skills)

theorem flatMap_eq_of_single {α β : Type} [DecidableEq α] (ks : List α) (k0 : α)
    (f : α → List β) (hnd : ks.Nodup) (hk : k0 ∈ ks)
    (hz : ∀ k ∈ ks, k ≠ k0 → f k = []) :
    ks.flatMap f = f k0 := by
  induction ks with
  | nil => exact absurd hk (List.not_mem_nil _)
  | cons k ks ih =>
    simp only [List.flatMap_cons]
    have hnd2 := List.nodup_cons.mp hnd
    by_cases he : k = k0
    · subst he
      have hnil : ks.flatMap f = [] := by
        rw [List.flatMap_eq_nil_iff]
        intro x hx
        exact hz x (List.mem_cons_of_mem _ hx) (fun e => hnd2.1 (e ▸ hx))
      rw [hnil, List.append_nil]
    · have hk0 : k0 ∈ ks := by
        rcases List.mem_cons.mp hk with h | h
        · exact absurd h.symm he
        · exact h
      rw [hz k (List.mem_cons_self _ _) he, List.nil_append]
      exact ih hnd2.2 hk0 (fun x hx hxne => hz x (List.mem_cons_of_mem _ hx) hxne)

theorem isFound_iff_found (r : PluginRead) :
    r.isFound = true ↔ ∃ n v, r = .found n v := by
  cases r <;> simp [PluginRead.isFound]

/-- Shared characterization: the groups are emitted in first-encounter
order of the `pluginPath` keys (all standalone skills sharing the single
`undefined` key), each key rendered from the skills carrying it. -/
theorem groupSkills_eq_keys_flatMap (fs : SegPath → PluginRead)
    (skills : List ExtendedPackageResult) :
    groupSkillsByPlugin fs skills =
      (dedupFirst (skills.map (fun s => s.pluginPath))).flatMap
        (fun k => renderEntry fs (k, skills.filter (fun s => decide (s.pluginPath = k)))) := by
  rw [groupSkillsByPlugin, buildMap_eq, List.flatMap_map]

/-- C3 counterexample: a standalone bundle encountered after a
descriptor-bearing bundle does NOT yield a group after the group of that descriptor — all standalone bundles share the map key `undefined`, so their
groups are emitted together at the position of the first standalone. -/
theorem groupSkillsByPlugin_order_counterexample :
    groupSkillsByPlugin fsPlug [aloneA, plugSkill, aloneB] =
      [⟨none, [aloneA]⟩, ⟨none, [aloneB]⟩,
       ⟨some ⟨"plug-pack", none, ["plug"]⟩, [plugSkill]⟩] ∧
    groupSkillsByPlugin fsPlug [aloneA, plugSkill, aloneB] ≠
      [⟨none, [aloneA]⟩, ⟨some ⟨"plug-pack", none, ["plug"]⟩, [plugSkill]⟩,
       ⟨none, [aloneB]⟩] := by
  refine ⟨by decide, by decide⟩

/-- C3 (amended): the group sequence is ordered by first-encounter order
of the map keys — the resolved descriptor path for descriptor-bearing
results, with ALL standalone results sharing one `undefined` key — each
entry of each key rendered from the results carrying that key in input order. -/
theorem groupSkillsByPlugin_first_encounter_order (fs : SegPath → PluginRead)
    (skills : List ExtendedPackageResult) :
    groupSkillsByPlugin fs skills =
      (dedupFirst (skills.map (fun s => s.pluginPath))).flatMap
        (fun k => renderEntry fs (k, skills.filter (fun s => decide (s.pluginPath = k)))) :=
  groupSkills_eq_keys_flatMap fs skills

/-- C7: grouping partitions the results — the members of all groups are a
permutation of the input — and, whenever every referenced descriptor path
reads back as a valid descriptor (always the case in the pipeline, where
`pluginPath` originates from a successful walk over the same tree), the
results sharing a resolved descriptor path form exactly one group carrying
that descriptor (distinct paths giving distinct groups), while each result
without a descriptor is exactly one singleton standalone group. -/
theorem groupSkillsByPlugin_partition (fs : SegPath → PluginRead)
    (skills : List ExtendedPackageResult) :
    ((groupSkillsByPlugin fs skills).flatMap (fun g => g.skills)).Perm skills ∧
    ((∀ p : SegPath, some p ∈ skills.map (fun s => s.pluginPath) →
        (fs p).isFound = true) →
      (∀ p : SegPath, some p ∈ skills.map (fun s => s.pluginPath) →
        ∃ n v, fs p = .found n v ∧
          (groupSkillsByPlugin fs skills).filter
              (fun g => decide (g.plugin.map (fun pm => pm.path) = some p)) =
            [⟨some ⟨n, v, p⟩,
              skills.filter (fun s => decide (s.pluginPath = some p))⟩]) ∧
      ((groupSkillsByPlugin fs skills).filter (fun g => decide (g.plugin = none)) =
        (skills.filter (fun s => decide (s.pluginPath = none))).map
          (fun s => ⟨none, [s]⟩))) := by
  have hKnd : (dedupFirst (skills.map (fun s => s.pluginPath))).Nodup :=
    dedupNew_nodup _ _
  have hmemK : ∀ k : Option SegPath,
      k ∈ dedupFirst (skills.map (fun s => s.pluginPath)) ↔
        k ∈ skills.map (fun s => s.pluginPath) := by
    intro k
    rw [dedupFirst, mem_dedupNew]
    simp
  constructor
  · rw [groupSkillsByPlugin, flatMap_flatMap]
    have hent : ∀ e ∈ buildMap skills,
        ((renderEntry fs e).flatMap (fun g => g.skills)) = e.2 := by
      intro e _
      obtain ⟨k, gs⟩ := e
      exact renderEntry_flatMap_skills fs k gs
    rw [flatMap_congr hent, buildMap_eq, List.flatMap_map]
    exact flatMap_filter_key_perm _ skills hKnd
      (fun s hs => (hmemK _).mpr (List.mem_map_of_mem _ hs))
  · intro hfs
    constructor
    · intro p hp
      obtain ⟨n, v, hfnd⟩ := (isFound_iff_found _).mp (hfs p hp)
      refine ⟨n, v, hfnd, ?_⟩
      rw [groupSkills_eq_keys_flatMap, filter_flatMap]
      rw [flatMap_eq_of_single _ (some p) _ hKnd ((hmemK _).mpr hp) ?hz]
      case hz =>
        intro k hkK hkne
        cases k with
        | none => simp [renderEntry, List.filter_map]
        | some q =>
          obtain ⟨n2, v2, hf2⟩ :=
            (isFound_iff_found _).mp (hfs q ((hmemK _).mp hkK))
          have hqp : q ≠ p := fun e => hkne (by rw [e])
          simp [renderEntry, hf2, hqp]
      simp [renderEntry, hfnd]
    · rw [groupSkills_eq_keys_flatMap, filter_flatMap]
      by_cases hnone : (none : Option SegPath) ∈
          dedupFirst (skills.map (fun s => s.pluginPath))
      · rw [flatMap_eq_of_single _ none _ hKnd hnone ?hz2]
        case hz2 =>
          intro k hkK hkne
          cases k with
          | none => exact absurd rfl hkne
          | some q =>
            obtain ⟨n2, v2, hf2⟩ :=
              (isFound_iff_found _).mp (hfs q ((hmemK _).mp hkK))
            simp [renderEntry, hf2]
        simp [renderEntry, List.filter_map]
      · have hLHS :
            (dedupFirst (skills.map (fun s => s.pluginPath))).flatMap
              (fun k =>
                (renderEntry fs
                  (k, skills.filter (fun s => decide (s.pluginPath = k)))).filter
                  (fun g => decide (g.plugin = none))) = [] := by
          rw [List.flatMap_eq_nil_iff]
          intro k hkK
          cases k with
          | none => exact absurd hkK hnone
          | some q =>
            obtain ⟨n2, v2, hf2⟩ :=
              (isFound_iff_found _).mp (hfs q ((hmemK _).mp hkK))
            simp [renderEntry, hf2]
        have hRHS : skills.filter (fun s => decide (s.pluginPath = none)) = [] := by
          rw [List.filter_eq_nil_iff]
          intro s hs hdec
          have hsp : s.pluginPath = none := by simpa using hdec
          exact hnone ((hmemK none).mpr (by
            rw [← hsp]
            exact List.mem_map_of_mem _ hs))
        rw [hLHS, hRHS]
        simp

theorem groupSkillsByPlugin_partition_witness :
    ((groupSkillsByPlugin fsPlug [aloneA, plugSkill]).flatMap
        (fun g => g.skills)).Perm [aloneA, plugSkill] ∧
    (groupSkillsByPlugin fsPlug [aloneA, plugSkill]).filter
        (fun g => decide (g.plugin = none)) = [⟨none, [aloneA]⟩] := by
  have h := groupSkillsByPlugin_partition fsPlug [aloneA, plugSkill]
  have hfsW : ∀ p : SegPath,
      some p ∈ ([aloneA, plugSkill].map (fun s => s.pluginPath)) →
      (fsPlug p).isFound = true := by
    intro p hp
    simp [aloneA, plugSkill] at hp
    subst hp
    decide
  refine ⟨h.1, ?_⟩
  rw [(h.2 hfsW).2]
  decide

theorem packageSkill_path_eq_iff_witness :
    dupResA.path = dupResB.path ↔
      ∃ m1 m2, dupIOa.meta = some m1 ∧ dupIOb.meta = some m2 ∧
        zipFilename m1 = zipFilename m2 :=
  packageSkill_path_eq_iff "dist" dupIOa dupIOb dupResA dupResB (by decide) (by decide)

/-! ## The upward descriptor walk (C6, C10) -/

theorem findPluginLoop_eq_firstValid (fs : SegPath → PluginRead) :
    ∀ (fuel : Nat) (cur : SegPath),
    findPluginLoop fs cur fuel = firstValidPlugin fs (ancestorChain cur fuel) := by
  intro fuel
  induction fuel with
  | zero => intro cur; rfl
  | succ n ih =>
    intro cur
    by_cases hroot : cur.dropLast = cur
    · simp [findPluginLoop, ancestorChain, hroot, firstValidPlugin]
    · simp only [findPluginLoop, ancestorChain, if_neg hroot, firstValidPlugin]
      cases hf : fs cur.dropLast with
      | found nm vv => rfl
      | absent => exact ih _
      | noName => exact ih _

theorem firstValid_some_iff (fs : SegPath → PluginRead) :
    ∀ (l : List SegPath) (m : PluginMeta),
    firstValidPlugin fs l = some m ↔
      ∃ i : Nat, l[i]? = some m.path ∧ fs m.path = .found m.name m.version ∧
        ∀ j : Nat, j < i → ∀ b, l[j]? = some b → (fs b).isFound = false := by
  intro l
  induction l with
  | nil => intro m; simp [firstValidPlugin]
  | cons a rest ih =>
    intro m
    cases hf : fs a with
    | found n v =>
      simp only [firstValidPlugin, hf]
      constructor
      · intro he
        have hm : m = ⟨n, v, a⟩ := (Option.some.inj he).symm
        subst hm
        exact ⟨0, by simp, hf, fun j hj => absurd hj (Nat.not_lt_zero j)⟩
      · rintro ⟨i, hi, hfnd, hmin⟩
        cases i with
        | zero =>
          rw [List.getElem?_cons_zero] at hi
          have hap : a = m.path := Option.some.inj hi
          rw [← hap, hf] at hfnd
          simp only [PluginRead.found.injEq] at hfnd
          obtain ⟨h1, h2⟩ := hfnd
          cases m
          simp only at hap h1 h2
          subst hap
          subst h1
          subst h2
          rfl
        | succ i2 =>
          have h0 := hmin 0 (Nat.succ_pos i2) a (by simp)
          rw [hf] at h0
          simp [PluginRead.isFound] at h0
    | absent =>
      simp only [firstValidPlugin, hf]
      rw [ih]
      constructor
      · rintro ⟨i, hi, hfnd, hmin⟩
        refine ⟨i + 1, by simpa using hi, hfnd, ?_⟩
        intro j hj b hb
        cases j with
        | zero =>
          rw [List.getElem?_cons_zero] at hb
          have hab : a = b := Option.some.inj hb
          subst hab
          rw [hf]
          rfl
        | succ j2 =>
          rw [List.getElem?_cons_succ] at hb
          exact hmin j2 (Nat.succ_lt_succ_iff.mp hj) b hb
      · rintro ⟨i, hi, hfnd, hmin⟩
        cases i with
        | zero =>
          rw [List.getElem?_cons_zero] at hi
          have hap : a = m.path := Option.some.inj hi
          rw [← hap, hf] at hfnd
          exact absurd hfnd (by simp)
        | succ i2 =>
          rw [List.getElem?_cons_succ] at hi
          refine ⟨i2, hi, hfnd, ?_⟩
          intro j hj b hb
          exact hmin (j + 1) (Nat.succ_lt_succ hj) b (by rwa [List.getElem?_cons_succ])
    | noName =>
      simp only [firstValidPlugin, hf]
      rw [ih]
      constructor
      · rintro ⟨i, hi, hfnd, hmin⟩
        refine ⟨i + 1, by simpa using hi, hfnd, ?_⟩
        intro j hj b hb
        cases j with
        | zero =>
          rw [List.getElem?_cons_zero] at hb
          have hab : a = b := Option.some.inj hb
          subst hab
          rw [hf]
          rfl
        | succ j2 =>
          rw [List.getElem?_cons_succ] at hb
          exact hmin j2 (Nat.succ_lt_succ_iff.mp hj) b hb
      · rintro ⟨i, hi, hfnd, hmin⟩
        cases i with
        | zero =>
          rw [List.getElem?_cons_zero] at hi
          have hap : a = m.path := Option.some.inj hi
          rw [← hap, hf] at hfnd
          exact absurd hfnd (by simp)
        | succ i2 =>
          rw [List.getElem?_cons_succ] at hi
          refine ⟨i2, hi, hfnd, ?_⟩
          intro j hj b hb
          exact hmin (j + 1) (Nat.succ_lt_succ hj) b (by rwa [List.getElem?_cons_succ])

theorem firstValid_none_iff (fs : SegPath → PluginRead) :
    ∀ l : List SegPath,
    firstValidPlugin fs l = none ↔ ∀ a ∈ l, (fs a).isFound = false := by
  intro l
  induction l with
  | nil => simp [firstValidPlugin]
  | cons a rest ih =>
    cases hf : fs a with
    | found n v =>
      simp only [firstValidPlugin, hf]
      constructor
      · intro he
        exact Option.noConfusion he
      · intro hall
        have ha := hall a (List.mem_cons_self _ _)
        rw [hf] at ha
        simp [PluginRead.isFound] at ha
    | absent =>
      simp only [firstValidPlugin, hf]
      rw [ih]
      constructor
      · intro h x hx
        rcases List.mem_cons.mp hx with rfl | hx2
        · rw [hf]; rfl
        · exact h x hx2
      · intro h x hx
        exact h x (List.mem_cons_of_mem _ hx)
    | noName =>
      simp only [firstValidPlugin, hf]
      rw [ih]
      constructor
      · intro h x hx
        rcases List.mem_cons.mp hx with rfl | hx2
        · rw [hf]; rfl
        · exact h x hx2
      · intro h x hx
        exact h x (List.mem_cons_of_mem _ hx)

/-- C6 counterexample: an empty-string `name` is accepted by the walk (the
code only checks `typeof name === "string"`), so a nearer descriptor with
`name: ""` wins over a farther one with a non-empty name, contradicting
the claim that a level lacking a non-empty name is skipped. -/
theorem findPluginForSkill_empty_name_counterexample :
    findPluginForSkill fsEmptyName ["r", "s"] = some ⟨"", none, ["r"]⟩ ∧
    fsEmptyName [] = .found "good" none ∧
    findPluginForSkill fsEmptyName ["r", "s"] ≠ some ⟨"good", none, []⟩ := by
  refine ⟨by decide, by decide, by decide⟩

/-- C6 (amended): the walk returns the descriptor of the nearest ancestor
(within the 5-level / root bound, i.e. along `ancestorChain p 5`) whose
`plugin.json` parses with a string `name` — empty or not; nearer levels
that are missing, unparseable or lack a string name are skipped; the
result is `none` exactly when no visited level has a usable descriptor
(the walk is total — it never raises). -/
theorem findPluginForSkill_nearest_valid (fs : SegPath → PluginRead) (p : SegPath) :
    (∀ m, findPluginForSkill fs p = some m ↔
      ∃ i : Nat, (ancestorChain p 5)[i]? = some m.path ∧
        fs m.path = .found m.name m.version ∧
        ∀ j : Nat, j < i → ∀ b, (ancestorChain p 5)[j]? = some b →
          (fs b).isFound = false) ∧
    (findPluginForSkill fs p = none ↔
      ∀ a ∈ ancestorChain p 5, (fs a).isFound = false) := by
  constructor
  · intro m
    rw [findPluginForSkill, findPluginLoop_eq_firstValid]
    exact firstValid_some_iff fs _ m
  · rw [findPluginForSkill, findPluginLoop_eq_firstValid]
    exact firstValid_none_iff fs _

theorem findPluginForSkill_nearest_valid_witness :
    findPluginForSkill fsPlug ["plug", "sub"] = some ⟨"plug-pack", none, ["plug"]⟩ :=
  ((findPluginForSkill_nearest_valid fsPlug ["plug", "sub"]).1
      ⟨"plug-pack", none, ["plug"]⟩).mpr
    ⟨0, by decide, by decide, fun j hj => absurd hj (Nat.not_lt_zero j)⟩

theorem findPluginLoop_congr (fs fs' : SegPath → PluginRead) :
    ∀ (fuel : Nat) (cur : SegPath),
    (∀ q : SegPath, q.length < cur.length → fs q = fs' q) →
    findPluginLoop fs cur fuel = findPluginLoop fs' cur fuel := by
  intro fuel
  induction fuel with
  | zero => intro cur _; rfl
  | succ n ih =>
    intro cur hagree
    by_cases hroot : cur.dropLast = cur
    · simp [findPluginLoop, hroot]
    · have hcur : cur ≠ [] := by
        intro he
        subst he
        exact hroot rfl
      have hlen : cur.dropLast.length < cur.length := by
        rw [List.length_dropLast]
        have hpos : 0 < cur.length := List.length_pos.mpr hcur
        omega
      simp only [findPluginLoop, if_neg hroot]
      rw [hagree _ hlen]
      cases hf : fs' cur.dropLast with
      | found nm vv => rfl
      | absent => exact ih _ (fun q hq => hagree q (hq.trans hlen))
      | noName => exact ih _ (fun q hq => hagree q (hq.trans hlen))

theorem findPluginLoop_path_shorter (fs : SegPath → PluginRead) :
    ∀ (fuel : Nat) (cur : SegPath) (m : PluginMeta),
    findPluginLoop fs cur fuel = some m → m.path.length < cur.length := by
  intro fuel
  induction fuel with
  | zero =>
    intro cur m h
    exact absurd h (by simp [findPluginLoop])
  | succ n ih =>
    intro cur m h
    by_cases hroot : cur.dropLast = cur
    · rw [show findPluginLoop fs cur (n + 1) = none from by
        simp [findPluginLoop, hroot]] at h
      exact Option.noConfusion h
    · have hcur : cur ≠ [] := by
        intro he
        subst he
        exact hroot rfl
      have hlen : cur.dropLast.length < cur.length := by
        rw [List.length_dropLast]
        have hpos : 0 < cur.length := List.length_pos.mpr hcur
        omega
      simp only [findPluginLoop, if_neg hroot] at h
      cases hf : fs cur.dropLast with
      | found nn vv =>
        rw [hf] at h
        have hm : m = ⟨nn, vv, cur.dropLast⟩ := (Option.some.inj h).symm
        subst hm
        exact hlen
      | absent =>
        rw [hf] at h
        exact (ih _ _ h).trans hlen
      | noName =>
        rw [hf] at h
        exact (ih _ _ h).trans hlen

/-- C10: the walk never consults a descriptor inside the own directory of the bundle — its outcome is invariant under arbitrary changes of the
filesystem at the bundle path itself, and any returned descriptor sits at
a proper ancestor, never at the bundle directory. -/
theorem findPluginForSkill_ignores_own_dir (fs fs' : SegPath → PluginRead) (p : SegPath)
    (h : ∀ q : SegPath, q ≠ p → fs q = fs' q) :
    findPluginForSkill fs p = findPluginForSkill fs' p ∧
    ∀ m, findPluginForSkill fs p = some m → m.path ≠ p := by
  constructor
  · refine findPluginLoop_congr fs fs' 5 p ?_
    intro q hq
    refine h q ?_
    intro he
    subst he
    exact absurd hq (lt_irrefl _)
  · intro m hm he
    have hlt := findPluginLoop_path_shorter fs 5 p m hm
    rw [he] at hlt
    exact absurd hlt (lt_irrefl _)

theorem findPluginForSkill_ignores_own_dir_witness :
    findPluginForSkill fsPlug ["plug", "sub"] = findPluginForSkill fsPlug ["plug", "sub"] ∧
    ∀ m, findPluginForSkill fsPlug ["plug", "sub"] = some m → m.path ≠ ["plug", "sub"] :=
  findPluginForSkill_ignores_own_dir fsPlug fsPlug ["plug", "sub"] (fun _ _ => rfl)

/-! ## Run folding (C8) and discovery depth (C9) -/

theorem length_filterMap_eq_iff {α β : Type} (f : α → Option β) (l : List α) :
    (l.filterMap f).length = l.length ↔ ∀ a ∈ l, (f a).isSome = true := by
  induction l with
  | nil => simp
  | cons a l ih =>
    rw [List.filterMap_cons]
    cases hf : f a with
    | none =>
      simp only [List.length_cons]
      constructor
      · intro h
        have hle := List.length_filterMap_le f l
        omega
      · intro h
        have ha := h a (List.mem_cons_self _ _)
        rw [hf] at ha
        simp at ha
    | some b =>
      simp only [List.length_cons]
      constructor
      · intro h x hx
        rcases List.mem_cons.mp hx with rfl | hx2
        · rw [hf]; rfl
        · exact ih.mp (by omega) x hx2
      · intro h
        have hl := ih.mpr (fun x hx => h x (List.mem_cons_of_mem _ hx))
        omega

theorem length_filterMap_lt_iff {α β : Type} (f : α → Option β) (l : List α) :
    (l.filterMap f).length < l.length ↔ ∃ a ∈ l, f a = none := by
  have hle := List.length_filterMap_le f l
  constructor
  · intro h
    by_contra hno
    push_neg at hno
    have hall : ∀ a ∈ l, (f a).isSome = true :=
      fun a ha => Option.ne_none_iff_isSome.mp (hno a ha)
    rw [(length_filterMap_eq_iff f l).mpr hall] at h
    exact absurd h (lt_irrefl _)
  · rintro ⟨a, ha, hfa⟩
    rcases lt_or_eq_of_le hle with h | h
    · exact h
    · have hs := (length_filterMap_eq_iff f l).mp h a ha
      rw [hfa] at hs
      simp at hs

/-- C8: failing candidates are dropped while every candidate is still
processed, the manifest still lists exactly the successes, the `valid`
output is true iff every candidate succeeded (success count = candidate
count), and the exit status is non-zero exactly when some candidate was
excluded. -/
theorem runPackaging_partial_failure (cap : String → SkillIO) (outputDir : String)
    (fs : SegPath → PluginRead) (skillPaths : List String) (now : String) :
    (∀ r, r ∈ (runPackaging cap outputDir fs skillPaths now).results ↔
      ∃ p ∈ skillPaths, packageSkill (cap p) outputDir = some r) ∧
    (runPackaging cap outputDir fs skillPaths now).manifest.skills =
      (runPackaging cap outputDir fs skillPaths now).results ∧
    ((runPackaging cap outputDir fs skillPaths now).valid = true ↔
      ∀ p ∈ skillPaths, (packageSkill (cap p) outputDir).isSome = true) ∧
    ((runPackaging cap outputDir fs skillPaths now).exitNonzero = true ↔
      ∃ p ∈ skillPaths, packageSkill (cap p) outputDir = none) := by
  refine ⟨?_, ?_, ?_, ?_⟩
  · intro r
    simp [runPackaging, List.mem_filterMap]
  · simp [runPackaging, writeManifest]
  · simp only [runPackaging, beq_iff_eq]
    exact length_filterMap_eq_iff _ _
  · simp only [runPackaging, decide_eq_true_eq]
    exact length_filterMap_lt_iff _ _

theorem runPackaging_partial_failure_witness :
    ((runPackaging capMixed "dist" fsAbsent
        ["skills/one", "skills/bad", "skills/two"] "t0").exitNonzero = true) ∧
    (runPackaging capMixed "dist" fsAbsent
        ["skills/one", "skills/bad", "skills/two"] "t0").results.length = 2 ∧
    (runPackaging capMixed "dist" fsAbsent
        ["skills/one", "skills/bad", "skills/two"] "t0").manifest.skills =
      (runPackaging capMixed "dist" fsAbsent
        ["skills/one", "skills/bad", "skills/two"] "t0").results := by
  refine ⟨?_, by decide, ?_⟩
  · exact (runPackaging_partial_failure capMixed "dist" fsAbsent
      ["skills/one", "skills/bad", "skills/two"] "t0").2.2.2.mpr
      ⟨"skills/bad", by decide, by decide⟩
  · exact (runPackaging_partial_failure capMixed "dist" fsAbsent
      ["skills/one", "skills/bad", "skills/two"] "t0").2.1

theorem mem_dedupFirst {α : Type} [DecidableEq α] (l : List α) (a : α) :
    a ∈ dedupFirst l ↔ a ∈ l := by
  rw [dedupFirst, mem_dedupNew]
  simp

theorem mem_insertSorted (x : SegPath) (l : List SegPath) (a : SegPath) :
    a ∈ insertSorted x l ↔ a = x ∨ a ∈ l := by
  induction l with
  | nil => simp [insertSorted]
  | cons y ys ih =>
    simp only [insertSorted]
    by_cases h : pathLe x y
    · rw [if_pos h]
      simp [List.mem_cons]
    · rw [if_neg h]
      simp only [List.mem_cons, ih]
      tauto

theorem mem_sortPaths (l : List SegPath) (a : SegPath) :
    a ∈ sortPaths l ↔ a ∈ l := by
  induction l with
  | nil => simp [sortPaths]
  | cons x xs ih =>
    simp only [sortPaths, List.foldr_cons] at ih ⊢
    rw [mem_insertSorted, ih, List.mem_cons]

/-- C9: discovery yields the containing directory of every metadata file
at depth 0 through 3 below the scan root, and every yielded candidate
comes from such a file — a metadata file at depth 4 or deeper never
produces a candidate. -/
theorem discoverSkillPaths_depth (root : SegPath) (files : List (List String)) :
    (∀ f ∈ files, fileDepth f ≤ 3 →
      root ++ f.dropLast ∈ discoverSkillPaths root files) ∧
    (∀ d ∈ discoverSkillPaths root files,
      ∃ f ∈ files, fileDepth f ≤ 3 ∧ d = root ++ f.dropLast) := by
  constructor
  · intro f hf hd
    rw [discoverSkillPaths, mem_sortPaths, mem_dedupFirst]
    exact List.mem_map_of_mem _ (List.mem_filter.mpr ⟨hf, by simpa using hd⟩)
  · intro d hd
    rw [discoverSkillPaths, mem_sortPaths, mem_dedupFirst] at hd
    obtain ⟨f, hf, hmap⟩ := List.mem_map.mp hd
    rw [List.mem_filter] at hf
    exact ⟨f, hf.1, by simpa using hf.2, hmap.symm⟩

theorem discoverSkillPaths_depth_witness :
    ["skills", "a"] ∈ discoverSkillPaths ["skills"]
      [["a", "SKILL.md"], ["a", "b", "c", "d", "SKILL.md"]] ∧
    discoverSkillPaths ["skills"]
      [["a", "SKILL.md"], ["a", "b", "c", "d", "SKILL.md"]] = [["skills", "a"]] := by
  refine ⟨?_, by decide⟩
  · exact (discoverSkillPaths_depth ["skills"] _).1 ["a", "SKILL.md"]
      (by decide) (by decide)

end SkillsPackager
